import Mathlib

/-!
Shallow embedding of the `duplicate-cleaner` repository (Go).

Modelling choices, common to the whole file:

* A Go `FileInfo` struct becomes the Lean structure `FileInfo`; the Go zero
  value `""` of the `Hash` field stands for "hash absent".
* Go `int64` sizes become `Int`; no arithmetic is performed on sizes, only
  comparisons, so no overflow wrapping is involved.
* Go maps (`map[string]FileInfos`, `map[int64][]*FileInfo`, `map[string]int`)
  become association lists in key-insertion order.  Go map iteration order is
  unspecified; every claim about the grouping functions is stated up to
  permutation / membership, never about the order the Go map would produce.
* File-system effects (`os.Remove`, `filepath.Walk`, opening and hashing
  files) are modelled by explicit state or by oracles: deletion acts on an
  explicit list of existing paths, hashing consults an oracle
  `HashAlg → String → Option String` (digest of the file at a path, `none`
  when opening/reading the file fails), and the directory walk consumes an
  explicit tree of visit outcomes.
* The bounded worker pool of `calcHashs` is not observable in the final
  state (the stage blocks until every task finished); the model records each
  task's outcome in input order.
* The progress bars and `log.Printf` calls are pure side channels that do
  not influence any result; they are omitted.
-/

set_option maxHeartbeats 1000000
set_option linter.unusedSectionVars false
set_option linter.unusedVariables false

namespace DupClean

/-- Decidable equality for `Except`, needed to evaluate results of the
fallible operations on concrete inputs. -/
instance {ε α : Type} [DecidableEq ε] [DecidableEq α] : DecidableEq (Except ε α) := fun a b =>
  match a, b with
  | Except.error e, Except.error f =>
      if h : e = f then isTrue (congrArg Except.error h)
      else isFalse (fun c => h (by injection c))
  | Except.ok x, Except.ok y =>
      if h : x = y then isTrue (congrArg Except.ok h)
      else isFalse (fun c => h (by injection c))
  | Except.error _, Except.ok _ => isFalse (fun c => Except.noConfusion c)
  | Except.ok _, Except.error _ => isFalse (fun c => Except.noConfusion c)

/-- Model of Go `strings.ToLower` (ASCII range; the names compared by the
code are all ASCII), written over the character list so that it evaluates
inside the kernel. -/
def strLower (s : String) : String :=
  String.mk (s.data.map Char.toLower)

/-- Go `duplicate.FileInfo`: one file record.  `Hash = ""` means the hash is
absent (the Go zero value). -/
structure FileInfo where
  Path : String
  Size : Int
  Hash : String
  deriving DecidableEq

/-- Go `duplicate.DupList = map[string]FileInfos`, modelled as an association
list in key-insertion order. -/
abbrev DupList := List (String × List FileInfo)

section Grouping

variable {α : Type} {κ : Type} [DecidableEq κ]

/-- One Go map update `group[k] = append(group[k], a)`: append `a` to the
entry of key `k`, or create a new singleton entry when `k` is absent. -/
def insertBy (k : κ) (a : α) : List (κ × List α) → List (κ × List α)
  | [] => [(k, [a])]
  | p :: rest => if p.1 = k then (p.1, p.2 ++ [a]) :: rest else p :: insertBy k a rest

/-- The grouping loop `for _, a := range l { group[key a] = append(group[key a], a) }`
starting from an empty map. -/
def groupInto (key : α → κ) (l : List α) : List (κ × List α) :=
  l.foldl (fun m a => insertBy (key a) a m) []

/-- Concatenation of all values of the map, in entry order (the Go code
appends `v...` for each surviving map entry). -/
def flatVals : List (κ × List α) → List α
  | [] => []
  | p :: rest => p.2 ++ flatVals rest

/-- Go map lookup `m[k]` for list-valued maps, with the zero value `[]` for
an absent key. -/
def valOf (k : κ) : List (κ × List α) → List α
  | [] => []
  | p :: rest => if p.1 = k then p.2 else valOf k rest

/-- One Go map update `counts[k] += 1` (with zero value `0`). -/
def bumpCount (k : κ) : List (κ × Nat) → List (κ × Nat)
  | [] => [(k, 1)]
  | p :: rest => if p.1 = k then (p.1, p.2 + 1) :: rest else p :: bumpCount k rest

/-- Go map lookup `counts[k]` with zero value `0`. -/
def countOf (k : κ) : List (κ × Nat) → Nat
  | [] => 0
  | p :: rest => if p.1 = k then p.2 else countOf k rest

end Grouping

/-- Loop body of `groupByHash`: records with an absent hash are skipped,
otherwise the record is appended to its hash group and the hash counter is
bumped. -/
def hashStep (s : DupList × List (String × Nat)) (f : FileInfo) :
    DupList × List (String × Nat) :=
  if f.Hash ≠ "" then (insertBy f.Hash f s.1, bumpCount f.Hash s.2) else s

/-- Go `duplicate.groupByHash`: group the records by hash (skipping records
whose hash is absent), then delete every group whose hash occurs exactly
once.  The Go code deletes `group[k]` for every `k` with `counts[k] == 1`;
here the surviving entries are kept by filtering on the counter. -/
def groupByHash (files : List FileInfo) : DupList :=
  if files = [] then []
  else
    let gc := files.foldl hashStep ([], [])
    gc.1.filter (fun p => countOf p.1 gc.2 != 1)

/-- Go `duplicate.groupBySize`: group the records by size, drop every group
of cardinality 1, and concatenate the surviving groups. -/
def groupBySize (files : List FileInfo) : List FileInfo :=
  if files = [] then []
  else
    let group := files.foldl (fun m f => insertBy f.Size f m) []
    flatVals (group.filter (fun p => p.2.length != 1))

/-- The four digest algorithms of `newHash` (`crypto/md5`, `crypto/sha1`,
`crypto/sha256`, `crypto/sha512`). -/
inductive HashAlg where
  | md5
  | sha1
  | sha256
  | sha512
  deriving DecidableEq

/-- Go `duplicate.newHash`: select the digest algorithm by lowercased name;
every unrecognized name (including `"md5"` itself) takes the `default`
branch, which is MD5.  The Go `switch` on `strings.ToLower(hashName)` is
rendered as an `if` chain. -/
def newHash (hashName : String) : HashAlg :=
  if strLower hashName = "sha1" then HashAlg.sha1
  else if strLower hashName = "sha256" then HashAlg.sha256
  else if strLower hashName = "sha512" then HashAlg.sha512
  else HashAlg.md5

/-- An oracle abstracting `calcHash` (opening the file at a path and
streaming its bytes through a digest): the lowercase-hex digest of the file's
content under the given algorithm, or `none` when opening/reading fails. -/
abbrev HashOracle := HashAlg → String → Option String

/-- Body of one hashing task of `calcHashs`: on success store the digest on
the record, on failure leave the record (and hence its absent hash)
untouched. -/
def hashTask (oracle : HashAlg → String → Option String) (alg : HashAlg)
    (f : FileInfo) : FileInfo :=
  match oracle alg f.Path with
  | some hv => { f with Hash := hv }
  | none => f

/-- The error message a failing hashing task appends (Go:
`计算文件 %s 的Hash值失败: %v`, the underlying cause elided). -/
def hashErrMsg (path : String) : String :=
  "计算文件 " ++ path ++ " 的Hash值失败"

/-- Go `duplicate.calcHashs`: run one hashing task per record and collect the
error of every failing task.  The bounded pool (`n` slots) and the mutex
around the error list only affect scheduling, not the final state, which is
recorded here in input order: first component the annotated records, second
component the collected errors (`errors.Join` of an empty collection is the
nil error, modelled by `[]`). -/
def calcHashs (files : List FileInfo) (hashName : String)
    (oracle : HashOracle) : List FileInfo × List String :=
  if files = [] then ([], [])
  else
    (files.map (hashTask oracle (newHash hashName)),
     (files.filter (fun f => (oracle (newHash hashName) f.Path).isNone)).map
       (fun f => hashErrMsg f.Path))

/-- Model of `os.Remove` on an explicit file system (the list of currently
existing paths): removing an existing path succeeds and erases it, removing
anything else fails with an error naming the path. -/
def osRemove (fs : List String) (p : String) : List String × Option String :=
  if p ∈ fs then (fs.erase p, none)
  else (fs, some ("remove " ++ p ++ ": no such file or directory"))

/-- The failure entry `Clean` appends for one path (Go:
`文件%s清理失败: %v`). -/
def cleanErrMsg (file : String) (e : String) : String :=
  "文件" ++ file ++ "清理失败: " ++ e

/-- Loop body of `Clean`: try to delete one path; on success bump the
success counter, on failure append the `{path, error}` entry. -/
def cleanStep (st : List String × Nat × List String) (file : String) :
    List String × Nat × List String :=
  match osRemove st.1 file with
  | (fs', none) => (fs', st.2.1 + 1, st.2.2)
  | (fs', some e) => (fs', st.2.1, st.2.2 ++ [cleanErrMsg file e])

/-- Go `duplicate.Clean`: delete each path of the list in order, tolerating
per-path failures.  Result: the file system after all deletions, the success
count `n`, and the list of failure entries (`errors.Join` of an empty list
is the nil error, modelled by `[]`). -/
def Clean (fs : List String) (files : List String) :
    List String × Nat × List String :=
  if files = [] then (fs, 0, [])
  else files.foldl cleanStep (fs, 0, [])

mutual

/-- One node of the file tree seen by `filepath.Walk`: a regular file with a
size, a non-regular entry (symlink, device, socket …), an entry whose
stat/access fails (the callback receives a non-nil error and answers
`filepath.SkipDir`), or a directory with its children. -/
inductive FTree where
  | file : String → Int → FTree
  | special : String → FTree
  | errEntry : String → FTree
  | dir : String → FForest → FTree
  deriving DecidableEq

/-- A list of sibling tree nodes (spelled as a mutual inductive so that the
walk below is structurally recursive and evaluates inside the kernel). -/
inductive FForest where
  | nil : FForest
  | cons : FTree → FForest → FForest
  deriving DecidableEq

end

/-- Split a character list at every occurrence of the separator; the result
always has at least one field (model of Go `strings.Split` with a one-rune
separator). -/
def splitChar (sep : Char) : List Char → List (List Char)
  | [] => [[]]
  | c :: rest =>
      if c = sep then [] :: splitChar sep rest
      else
        match splitChar sep rest with
        | s :: ss => (c :: s) :: ss
        | [] => [[c]]

/-- Model of Go `filepath.Base` restricted to slash paths: the last
non-empty `/`-separated component (`"/"` for a root path, `"."` for the
empty path). -/
def baseName (p : String) : String :=
  match ((splitChar '/' p.data).filter (fun s => s != [])).getLast? with
  | some b => String.mk b
  | none => if p = "" then "." else "/"

/-- The `.git` / `.svn` pruning test of the walk callback
(`strings.EqualFold`, modelled as comparison of lowercased strings). -/
def isVcsDir (path : String) : Bool :=
  strLower (baseName path) == ".git" || strLower (baseName path) == ".svn"

/-- The walk callback of `walkDirs` applied along a forest of visit
outcomes: stat-error entries are skipped (`filepath.SkipDir`), `.git`/`.svn`
directories are pruned, non-regular entries are skipped, and every regular
file with positive size is recorded with an absent hash. -/
def walkF : FForest → List FileInfo
  | FForest.nil => []
  | FForest.cons (FTree.file p s) ts =>
      (if 0 < s then [{ Path := p, Size := s, Hash := "" }] else []) ++ walkF ts
  | FForest.cons (FTree.special _) ts => walkF ts
  | FForest.cons (FTree.errEntry _) ts => walkF ts
  | FForest.cons (FTree.dir p es) ts =>
      (if isVcsDir p then [] else walkF es) ++ walkF ts

/-- Walking one root tree. -/
def walkTree (t : FTree) : List FileInfo :=
  walkF (FForest.cons t FForest.nil)

/-- Outcome of preparing and walking one root directory: `absFail` when
`filepath.Abs` fails (the root is skipped with a log line), `walkFail e`
when the walk primitive itself fails with error `e` (fatal), `ok t` when the
root resolves to the visit tree `t`. -/
inductive RootOutcome where
  | absFail : RootOutcome
  | walkFail : String → RootOutcome
  | ok : FTree → RootOutcome
  deriving DecidableEq

/-- `true` exactly on `walkFail`. -/
def isWalkFail : RootOutcome → Bool
  | RootOutcome.walkFail _ => true
  | _ => false

/-- The fatal error of `walkDirs` on an empty root list (Go: `目录未指定`). -/
def dirsErr : String := "目录未指定"

/-- The root loop of `walkDirs`: skip roots whose absolute-path resolution
failed, abort on a failure of the walk primitive itself, and accumulate the
records of every successfully walked root. -/
def walkDirsGo : List RootOutcome → List FileInfo → Except String (List FileInfo)
  | [], acc => Except.ok acc
  | RootOutcome.absFail :: rest, acc => walkDirsGo rest acc
  | RootOutcome.walkFail e :: _, _ => Except.error e
  | RootOutcome.ok t :: rest, acc => walkDirsGo rest (acc ++ walkTree t)

/-- Go `duplicate.walkDirs`: an empty root list is the fatal error
`目录未指定`, otherwise the roots are walked in order. -/
def walkDirs (dirs : List RootOutcome) : Except String (List FileInfo) :=
  if dirs = [] then Except.error dirsErr else walkDirsGo dirs []

/-- Go `duplicate.List` (named `listDup` here since `List` is taken): walk
the roots (a walk failure is fatal), pre-filter by size, hash the survivors
(collecting per-file failures), group by hash, and return the duplicate
groups together with the joined hashing errors. -/
def listDup (dirs : List RootOutcome) (hashName : String) (oracle : HashOracle) :
    Except String (DupList × List String) :=
  match walkDirs dirs with
  | Except.error e => Except.error e
  | Except.ok fs0 =>
      let fs1 := groupBySize fs0
      let r := calcHashs fs1 hashName oracle
      Except.ok (groupByHash r.1, r.2)

/-- Go `cmd.splitLine`, the group delimiter of the textual list format. -/
def splitLine : String := "--------"

/-- One record line of the textual list format (Go:
`fmt.Sprintf("%s\t%dB\t%s", s.Path, s.Size, s.Hash)`).  Lines are modelled
as character lists, which is what the byte-oriented Go I/O manipulates. -/
def formatRecord (f : FileInfo) : List Char :=
  f.Path.data ++ ('\t' :: ((toString f.Size).data ++ ('B' :: '\t' :: f.Hash.data)))

/-- The lines `saveList` writes: for each group a delimiter line followed by
one record line per file (group order is Go map iteration order; the claims
about this format are stated up to the set of paths, and here the entry
order of the association list is used). -/
def saveLines : DupList → List (List Char)
  | [] => []
  | g :: rest => splitLine.data :: (g.2.map formatRecord ++ saveLines rest)

/-- Go `cmd.saveList` reduced to its pure content: an empty duplicate list
is the error `无重复文件`, otherwise the written lines. -/
def saveList (l : DupList) : Except String (List (List Char)) :=
  if l = [] then Except.error "无重复文件"
  else Except.ok (saveLines l)

/-- Model of Go `strings.Split(s, "\t")` on character lists: split at every
tab; the result always has at least one field (splitting the empty string
yields one empty field). -/
def splitTab (line : List Char) : List (List Char) :=
  splitChar '\t' line

/-- The malformed-line error of `readList` (Go:
`文件 %s 格式错误: 每行应包含文件路径`). -/
def fmtErrMsg (fname : String) : String :=
  "文件 " ++ fname ++ " 格式错误: 每行应包含文件路径"

/-- The scanner loop of `readList` over the lines of one list file: delimiter
lines are skipped, every other line is split at tabs and its first field is
appended to the accumulated deletion list; the error branch guards
`len(s) < 1`. -/
def readLines (fname : String) : List (List Char) → List String →
    Except String (List String)
  | [], acc => Except.ok acc
  | line :: more, acc =>
      if line = splitLine.data then readLines fname more acc
      else
        let s := splitTab line
        if s.length < 1 then Except.error (fmtErrMsg fname)
        else readLines fname more (acc ++ [String.mk (s.headD [])])

/-- The outer loop of `readList` over the given list files; a file that
cannot be opened (content `none`) is the fatal error `无法打开文件 …`. -/
def readListGo : List (String × Option (List (List Char))) → List String →
    Except String (List String)
  | [], acc => Except.ok acc
  | (fname, none) :: _, _ => Except.error ("无法打开文件 " ++ fname)
  | (fname, some lines) :: rest, acc =>
      match readLines fname lines acc with
      | Except.error e => Except.error e
      | Except.ok acc' => readListGo rest acc'

/-- Go `cmd.readList`: read the deletion list from the given files (each
file is its name together with its lines, or `none` when opening fails). -/
def readList (files : List (String × Option (List (List Char)))) :
    Except String (List String) :=
  readListGo files []

/-- The concatenated path column of a duplicate list, in entry order. -/
def pathsOf : DupList → List String
  | [] => []
  | g :: rest => g.2.map (fun f => f.Path) ++ pathsOf rest

/-- Helper for `parseGroups`, scanning the lines from the right: the first
component collects the parsed fields of the record lines read since the last
delimiter, the second the completed groups. -/
def parseGroupsGo : List (List Char) → List String × List (List String)
  | [] => ([], [])
  | line :: rest =>
      let r := parseGroupsGo rest
      if line = splitLine.data then ([], r.1 :: r.2)
      else (String.mk ((splitTab line).headD []) :: r.1, r.2)

/-- Recover the group structure from the textual format, following the
spec's words: each delimiter line starts a new group, and a group consists
of the first tab-separated field of every following non-delimiter line
(lines before the first delimiter belong to no group). -/
def parseGroups (lines : List (List Char)) : List (List String) :=
  (parseGroupsGo lines).2

/-! ### Lemmas about the generic grouping maps -/

section GroupingLemmas

variable {α : Type} {κ : Type} [DecidableEq κ] [DecidableEq α]

theorem flatVals_insertBy (k : κ) (a : α) (m : List (κ × List α)) :
    List.Perm (flatVals (insertBy k a m)) (a :: flatVals m) := by
  induction m with
  | nil => simp [insertBy, flatVals]
  | cons p rest ih =>
      by_cases h : p.1 = k
      · simp only [insertBy, if_pos h, flatVals, List.append_assoc, List.singleton_append]
        exact List.perm_middle
      · simp only [insertBy, if_neg h, flatVals]
        exact (List.Perm.append_left p.2 ih).trans List.perm_middle

theorem flatVals_foldl_insert (key : α → κ) :
    ∀ (l : List α) (m : List (κ × List α)),
      List.Perm (flatVals (l.foldl (fun m a => insertBy (key a) a m) m)) (flatVals m ++ l)
  | [], m => by simp
  | a :: l, m => by
      simp only [List.foldl_cons]
      refine (flatVals_foldl_insert key l (insertBy (key a) a m)).trans ?_
      refine (List.Perm.append_right l (flatVals_insertBy (key a) a m)).trans ?_
      exact (@List.perm_middle _ a (flatVals m) l).symm

theorem flatVals_groupInto (key : α → κ) (l : List α) :
    List.Perm (flatVals (groupInto key l)) l := by
  simpa [groupInto, flatVals] using flatVals_foldl_insert key l []

theorem valOf_insertBy (k k' : κ) (a : α) (m : List (κ × List α)) :
    valOf k (insertBy k' a m) = if k = k' then valOf k m ++ [a] else valOf k m := by
  induction m with
  | nil =>
      by_cases h : k = k'
      · subst h; simp [insertBy, valOf]
      · have h' : ¬ k' = k := fun hh => h hh.symm
        simp [insertBy, valOf, h, h']
  | cons p rest ih =>
      by_cases h1 : p.1 = k'
      · by_cases h2 : k = k'
        · subst h2; simp [insertBy, valOf, h1]
        · have hpk : ¬ p.1 = k := fun hh => h2 (hh.symm.trans h1)
          have h2' : ¬ k' = k := fun hh => h2 hh.symm
          simp [insertBy, valOf, h1, h2, h2', hpk]
      · by_cases hpk : p.1 = k
        · have h2 : ¬ k = k' := fun hh => h1 (hpk.trans hh)
          simp [insertBy, valOf, h1, hpk, h2]
        · simp [insertBy, valOf, h1, hpk, ih]

theorem valOf_foldl_insert (key : α → κ) (k : κ) :
    ∀ (l : List α) (m : List (κ × List α)),
      valOf k (l.foldl (fun m a => insertBy (key a) a m) m)
        = valOf k m ++ l.filter (fun a => key a == k)
  | [], m => by simp
  | a :: l, m => by
      simp only [List.foldl_cons, valOf_foldl_insert key k l (insertBy (key a) a m),
        valOf_insertBy, List.filter_cons]
      by_cases h : key a = k
      · simp [h, beq_iff_eq]
      · have h' : ¬ k = key a := fun hh => h hh.symm
        simp [h, h', beq_iff_eq]

theorem valOf_groupInto (key : α → κ) (k : κ) (l : List α) :
    valOf k (groupInto key l) = l.filter (fun a => key a == k) := by
  simpa [groupInto, valOf] using valOf_foldl_insert key k l []

/-- Invariant: every record stored in a group carries that group's key. -/
def keyedBy (key : α → κ) (m : List (κ × List α)) : Prop :=
  ∀ p ∈ m, ∀ a ∈ p.2, key a = p.1

theorem keyedBy_insertBy {key : α → κ} (a : α) {m : List (κ × List α)}
    (h : keyedBy key m) : keyedBy key (insertBy (key a) a m) := by
  induction m with
  | nil =>
      intro p hp b hb
      simp only [insertBy, List.mem_singleton] at hp
      subst hp
      simp only [List.mem_singleton] at hb
      subst hb; rfl
  | cons q rest ih =>
      by_cases hq : q.1 = key a
      · intro p hp b hb
        simp only [insertBy, if_pos hq, List.mem_cons] at hp
        rcases hp with hp | hp
        · subst hp
          rcases List.mem_append.mp hb with hb | hb
          · exact h q (List.mem_cons_self q rest) b hb
          · simp only [List.mem_singleton] at hb; subst hb; exact hq.symm
        · exact h p (List.mem_cons_of_mem q hp) b hb
      · intro p hp b hb
        simp only [insertBy, if_neg hq, List.mem_cons] at hp
        rcases hp with hp | hp
        · subst hp; exact h p (List.mem_cons_self p rest) b hb
        · exact ih (fun r hr => h r (List.mem_cons_of_mem q hr)) p hp b hb

theorem keyedBy_foldl_insert (key : α → κ) :
    ∀ (l : List α) (m : List (κ × List α)),
      keyedBy key m → keyedBy key (l.foldl (fun m a => insertBy (key a) a m) m)
  | [], _, h => h
  | a :: l, m, h => by
      simp only [List.foldl_cons]
      exact keyedBy_foldl_insert key l _ (keyedBy_insertBy a h)

theorem keyedBy_groupInto (key : α → κ) (l : List α) :
    keyedBy key (groupInto key l) :=
  keyedBy_foldl_insert key l [] (by intro p hp; simp at hp)

theorem nonnil_insertBy (k : κ) (a : α) {m : List (κ × List α)}
    (h : ∀ p ∈ m, p.2 ≠ []) : ∀ p ∈ insertBy k a m, p.2 ≠ [] := by
  induction m with
  | nil =>
      intro p hp
      simp only [insertBy, List.mem_singleton] at hp
      subst hp; simp
  | cons q rest ih =>
      by_cases hq : q.1 = k
      · intro p hp
        simp only [insertBy, if_pos hq, List.mem_cons] at hp
        rcases hp with hp | hp
        · subst hp; simp
        · exact h p (List.mem_cons_of_mem q hp)
      · intro p hp
        simp only [insertBy, if_neg hq, List.mem_cons] at hp
        rcases hp with hp | hp
        · subst hp; exact h p (List.mem_cons_self p rest)
        · exact ih (fun r hr => h r (List.mem_cons_of_mem q hr)) p hp

theorem nonnil_foldl_insert (key : α → κ) :
    ∀ (l : List α) (m : List (κ × List α)),
      (∀ p ∈ m, p.2 ≠ []) → ∀ p ∈ l.foldl (fun m a => insertBy (key a) a m) m, p.2 ≠ []
  | [], _, h => h
  | a :: l, m, h => by
      simp only [List.foldl_cons]
      exact nonnil_foldl_insert key l _ (nonnil_insertBy (key a) a h)

theorem nonnil_groupInto (key : α → κ) (l : List α) :
    ∀ p ∈ groupInto key l, p.2 ≠ [] :=
  nonnil_foldl_insert key l [] (by intro p hp; simp at hp)

theorem mem_keys_insertBy {k'' k : κ} {a : α} {m : List (κ × List α)} :
    k'' ∈ (insertBy k a m).map Prod.fst ↔ k'' = k ∨ k'' ∈ m.map Prod.fst := by
  induction m with
  | nil => simp [insertBy]
  | cons q rest ih =>
      by_cases hq : q.1 = k
      · simp only [insertBy, if_pos hq, List.map_cons, List.mem_cons]
        constructor
        · rintro (h | h)
          · exact Or.inr (Or.inl h)
          · exact Or.inr (Or.inr h)
        · rintro (h | h | h)
          · exact Or.inl (h.trans hq.symm)
          · exact Or.inl h
          · exact Or.inr h
      · simp only [insertBy, if_neg hq, List.map_cons, List.mem_cons, ih]
        tauto

theorem nodup_keys_insertBy {k : κ} {a : α} {m : List (κ × List α)}
    (h : (m.map Prod.fst).Nodup) : ((insertBy k a m).map Prod.fst).Nodup := by
  induction m with
  | nil => simp [insertBy]
  | cons q rest ih =>
      simp only [List.map_cons, List.nodup_cons] at h
      by_cases hq : q.1 = k
      · simp only [insertBy, if_pos hq, List.map_cons, List.nodup_cons]
        exact ⟨h.1, h.2⟩
      · simp only [insertBy, if_neg hq, List.map_cons, List.nodup_cons]
        refine ⟨?_, ih h.2⟩
        intro hmem
        rcases mem_keys_insertBy.mp hmem with hh | hh
        · exact hq hh
        · exact h.1 hh

theorem nodup_keys_foldl_insert (key : α → κ) :
    ∀ (l : List α) (m : List (κ × List α)),
      (m.map Prod.fst).Nodup → ((l.foldl (fun m a => insertBy (key a) a m) m).map Prod.fst).Nodup
  | [], _, h => h
  | a :: l, m, h => by
      simp only [List.foldl_cons]
      exact nodup_keys_foldl_insert key l _ (nodup_keys_insertBy h)

theorem nodup_keys_groupInto (key : α → κ) (l : List α) :
    ((groupInto key l).map Prod.fst).Nodup :=
  nodup_keys_foldl_insert key l [] (by simp)

theorem entry_eq_valOf {m : List (κ × List α)} (hnd : (m.map Prod.fst).Nodup) :
    ∀ p ∈ m, p.2 = valOf p.1 m := by
  induction m with
  | nil => intro p hp; simp at hp
  | cons q rest ih =>
      simp only [List.map_cons, List.nodup_cons] at hnd
      intro p hp
      rcases List.mem_cons.mp hp with hp | hp
      · subst hp; simp [valOf]
      · have hne : ¬ q.1 = p.1 := by
          intro hh
          exact hnd.1 (hh ▸ List.mem_map.mpr ⟨p, hp, rfl⟩)
        simp only [valOf, if_neg hne]
        exact ih hnd.2 p hp

theorem filter_key_const {key : α → κ} {k : κ} (c : κ → Bool) {v : List α}
    (h : ∀ a ∈ v, key a = k) :
    v.filter (fun a => c (key a)) = if c k then v else [] := by
  induction v with
  | nil => simp
  | cons a v ih =>
      have ha : key a = k := h a (List.mem_cons_self a v)
      have ihv := ih (fun b hb => h b (List.mem_cons_of_mem a hb))
      by_cases hc : c k
      · simp [List.filter_cons, ha, hc, ihv]
      · simp [List.filter_cons, ha, hc, ihv]

theorem flatVals_filter_key {key : α → κ} (c : κ → Bool) :
    ∀ {m : List (κ × List α)}, keyedBy key m →
      flatVals (m.filter (fun p => c p.1)) = (flatVals m).filter (fun a => c (key a)) := by
  intro m
  induction m with
  | nil => intro _; simp [flatVals]
  | cons p rest ih =>
      intro hk
      have hv : ∀ a ∈ p.2, key a = p.1 := hk p (List.mem_cons_self p rest)
      have hrest : keyedBy key rest := fun q hq => hk q (List.mem_cons_of_mem p hq)
      by_cases hc : c p.1 = true
      · rw [show List.filter (fun p => c p.1) (p :: rest)
              = p :: List.filter (fun p => c p.1) rest from by simp [List.filter_cons, hc]]
        show p.2 ++ flatVals (List.filter (fun p => c p.1) rest) = _
        rw [ih hrest]
        show _ = (p.2 ++ flatVals rest).filter (fun a => c (key a))
        rw [List.filter_append, filter_key_const c hv, if_pos hc]
      · rw [show List.filter (fun p => c p.1) (p :: rest)
              = List.filter (fun p => c p.1) rest from by simp [List.filter_cons, hc]]
        rw [ih hrest]
        show _ = (p.2 ++ flatVals rest).filter (fun a => c (key a))
        rw [List.filter_append, filter_key_const c hv, if_neg hc, List.nil_append]

theorem mem_flatVals {x : α} : ∀ {m : List (κ × List α)},
    x ∈ flatVals m ↔ ∃ p ∈ m, x ∈ p.2 := by
  intro m
  induction m with
  | nil => simp [flatVals]
  | cons p rest ih =>
      simp only [flatVals, List.mem_append, ih, List.mem_cons]
      constructor
      · rintro (h | ⟨q, hq, hx⟩)
        · exact ⟨p, Or.inl rfl, h⟩
        · exact ⟨q, Or.inr hq, hx⟩
      · rintro ⟨q, hq | hq, hx⟩
        · subst hq; exact Or.inl hx
        · exact Or.inr ⟨q, hq, hx⟩

theorem flatVals_filter_groupInto (key : α → κ) (l : List α) (c : κ → Bool) :
    List.Perm
      (flatVals ((groupInto key l).filter (fun p => c p.1)))
      (l.filter (fun a => c (key a))) := by
  rw [flatVals_filter_key c (keyedBy_groupInto key l)]
  exact List.Perm.filter _ (flatVals_groupInto key l)

theorem bne_one_eq_two_le {n : Nat} (h : 0 < n) : (n != 1) = decide (2 ≤ n) := by
  apply Bool.eq_iff_iff.mpr
  simp only [bne_iff_ne, ne_eq, decide_eq_true_eq]
  omega

theorem flatVals_dropSingletons (key : α → κ) (l : List α) :
    List.Perm
      (flatVals ((groupInto key l).filter (fun p => p.2.length != 1)))
      (l.filter (fun a => l.countP (fun b => key b == key a) != 1)) := by
  have h1 : (groupInto key l).filter (fun p => p.2.length != 1)
      = (groupInto key l).filter (fun p => l.countP (fun b => key b == p.1) != 1) := by
    refine List.filter_congr ?_
    intro p hp
    have hval : p.2 = valOf p.1 (groupInto key l) :=
      entry_eq_valOf (nodup_keys_groupInto key l) p hp
    rw [hval, valOf_groupInto, ← List.countP_eq_length_filter]
  rw [h1]
  exact flatVals_filter_groupInto key l (fun k => l.countP (fun b => key b == k) != 1)

theorem countOf_bumpCount (k k' : κ) (c : List (κ × Nat)) :
    countOf k (bumpCount k' c) = if k = k' then countOf k c + 1 else countOf k c := by
  induction c with
  | nil =>
      by_cases h : k = k'
      · subst h; simp [bumpCount, countOf]
      · have h' : ¬ k' = k := fun hh => h hh.symm
        simp [bumpCount, countOf, h, h']
  | cons p rest ih =>
      by_cases h1 : p.1 = k'
      · by_cases h2 : k = k'
        · subst h2; simp [bumpCount, countOf, h1]
        · have hpk : ¬ p.1 = k := fun hh => h2 (hh.symm.trans h1)
          have h2' : ¬ k' = k := fun hh => h2 hh.symm
          simp [bumpCount, countOf, h1, h2, h2', hpk]
      · by_cases hpk : p.1 = k
        · have h2 : ¬ k = k' := fun hh => h1 (hpk.trans hh)
          simp [bumpCount, countOf, h1, hpk, h2]
        · simp [bumpCount, countOf, h1, hpk, ih]

theorem countOf_foldl_bump (key : α → κ) (k : κ) :
    ∀ (l : List α) (c : List (κ × Nat)),
      countOf k (l.foldl (fun cc a => bumpCount (key a) cc) c)
        = countOf k c + l.countP (fun a => key a == k)
  | [], c => by simp
  | a :: l, c => by
      simp only [List.foldl_cons, countOf_foldl_bump key k l (bumpCount (key a) c),
        countOf_bumpCount, List.countP_cons]
      by_cases h : key a = k
      · simp [h, beq_iff_eq]
        omega
      · have h' : ¬ k = key a := fun hh => h hh.symm
        simp [h, h', beq_iff_eq]

theorem count_key_pos {l : List α} {a : α} (key : α → κ) (ha : a ∈ l) :
    0 < l.countP (fun b => key b == key a) :=
  List.countP_pos_iff.mpr ⟨a, ha, by simp⟩

/-- Uniqueness of entries per key under distinct keys. -/
theorem key_inj_of_nodup {m : List (κ × List α)} (h : (m.map Prod.fst).Nodup) :
    ∀ p ∈ m, ∀ q ∈ m, p.1 = q.1 → p = q := by
  induction m with
  | nil => intro p hp; simp at hp
  | cons r rest ih =>
      simp only [List.map_cons, List.nodup_cons] at h
      intro p hp q hq hpq
      rcases List.mem_cons.mp hp with hp1 | hp1 <;> rcases List.mem_cons.mp hq with hq1 | hq1
      · exact hp1.trans hq1.symm
      · refine absurd ?_ h.1
        rw [← hp1, hpq]
        exact List.mem_map.mpr ⟨q, hq1, rfl⟩
      · refine absurd ?_ h.1
        rw [← hq1, ← hpq]
        exact List.mem_map.mpr ⟨p, hp1, rfl⟩
      · exact ih h.2 p hp1 q hq1 hpq

end GroupingLemmas

/-! ### Characterizations of the two grouping stages -/

theorem foldl_hashStep_split :
    ∀ (l : List FileInfo) (g : DupList) (c : List (String × Nat)),
      l.foldl hashStep (g, c)
        = ((l.filter (fun f => f.Hash != "")).foldl (fun m f => insertBy f.Hash f m) g,
           (l.filter (fun f => f.Hash != "")).foldl (fun cc f => bumpCount f.Hash cc) c)
  | [], g, c => by simp
  | f :: l, g, c => by
      by_cases h : f.Hash = ""
      · have h1 : hashStep (g, c) f = (g, c) := by simp [hashStep, h]
        rw [List.foldl_cons, h1, foldl_hashStep_split l g c]
        have hf : (f.Hash != "") = false := by simp [h]
        simp [List.filter_cons, hf]
      · have h1 : hashStep (g, c) f = (insertBy f.Hash f g, bumpCount f.Hash c) := by
          simp [hashStep, h]
        rw [List.foldl_cons, h1, foldl_hashStep_split l _ _]
        have hf : (f.Hash != "") = true := by simp [h]
        simp [List.filter_cons, hf]

theorem groupByHash_eq (files : List FileInfo) :
    groupByHash files
      = (groupInto (fun f => f.Hash) (files.filter (fun f => f.Hash != ""))).filter
          (fun p => p.2.length != 1) := by
  by_cases h : files = []
  · subst h; simp [groupByHash, groupInto]
  · simp only [groupByHash, if_neg h, foldl_hashStep_split files [] []]
    refine List.filter_congr ?_
    intro p hp
    have hval : p.2 = valOf p.1 (groupInto (fun f => f.Hash) (files.filter (fun f => f.Hash != ""))) :=
      entry_eq_valOf (nodup_keys_groupInto _ _) p hp
    rw [hval, valOf_groupInto, ← List.countP_eq_length_filter]
    rw [show countOf p.1
          ((files.filter (fun f => f.Hash != "")).foldl (fun cc f => bumpCount f.Hash cc) [])
        = (files.filter (fun f => f.Hash != "")).countP (fun a => a.Hash == p.1) from by
      simpa [countOf] using
        countOf_foldl_bump (fun f : FileInfo => f.Hash) p.1 (files.filter (fun f => f.Hash != "")) []]

theorem groupBySize_perm (files : List FileInfo) :
    List.Perm (groupBySize files)
      (files.filter (fun f => files.countP (fun g => g.Size == f.Size) != 1)) := by
  by_cases h : files = []
  · subst h; simp [groupBySize]
  · simp only [groupBySize, if_neg h]
    exact flatVals_dropSingletons (fun f => f.Size) files

theorem groupBySize_perm_two_le (files : List FileInfo) :
    List.Perm (groupBySize files)
      (files.filter (fun f => decide (2 ≤ files.countP (fun g => g.Size == f.Size)))) := by
  have heq : files.filter (fun f => files.countP (fun g => g.Size == f.Size) != 1)
      = files.filter (fun f => decide (2 ≤ files.countP (fun g => g.Size == f.Size))) :=
    List.filter_congr (fun f hf => bne_one_eq_two_le (count_key_pos (fun f => f.Size) hf))
  exact heq ▸ groupBySize_perm files

theorem mem_groupBySize {f : FileInfo} {files : List FileInfo}
    (h : f ∈ groupBySize files) : f ∈ files :=
  List.mem_of_mem_filter ((groupBySize_perm files).mem_iff.mp h)

theorem groupByHash_perm (files : List FileInfo) :
    List.Perm (flatVals (groupByHash files))
      (files.filter
        (fun f => f.Hash != "" && decide (2 ≤ files.countP (fun g => g.Hash == f.Hash)))) := by
  rw [groupByHash_eq]
  refine (flatVals_dropSingletons (fun f => f.Hash)
    (files.filter (fun f => f.Hash != ""))).trans ?_
  have step1 : (files.filter (fun f => f.Hash != "")).filter
        (fun a => (files.filter (fun f => f.Hash != "")).countP (fun b => b.Hash == a.Hash) != 1)
      = (files.filter (fun f => f.Hash != "")).filter
        (fun a => files.countP (fun b => b.Hash == a.Hash) != 1) := by
    refine List.filter_congr ?_
    intro a ha
    have hane : a.Hash ≠ "" := by
      have h2 := (List.mem_filter.mp ha).2
      simpa using h2
    congr 1
    rw [List.countP_filter]
    refine List.countP_congr ?_
    intro b _
    by_cases hb2 : b.Hash = a.Hash
    · simp [hb2, hane]
    · simp [hb2]
  rw [step1, List.filter_filter]
  have step2 : files.filter
        (fun a => (files.countP (fun b => b.Hash == a.Hash) != 1) && (a.Hash != ""))
      = files.filter
        (fun f => f.Hash != "" && decide (2 ≤ files.countP (fun g => g.Hash == f.Hash))) := by
    refine List.filter_congr ?_
    intro a ha
    have hpos : 0 < files.countP (fun b => b.Hash == a.Hash) := by
      simpa using count_key_pos (fun f : FileInfo => f.Hash) ha
    rw [bne_one_eq_two_le hpos, Bool.and_comm]
  exact step2 ▸ List.Perm.refl _

theorem mem_flatVals_groupByHash {f : FileInfo} {files : List FileInfo}
    (h : f ∈ flatVals (groupByHash files)) : f ∈ files ∧ f.Hash ≠ "" := by
  have h2 := (groupByHash_perm files).mem_iff.mp h
  have h3 := List.mem_filter.mp h2
  refine ⟨h3.1, ?_⟩
  have h4 := h3.2
  simp only [Bool.and_eq_true, bne_iff_ne, ne_eq] at h4
  exact h4.1

theorem groupByHash_keyed (files : List FileInfo) :
    ∀ p ∈ groupByHash files, ∀ f ∈ p.2, f.Hash = p.1 := by
  intro p hp
  rw [groupByHash_eq] at hp
  exact keyedBy_groupInto (fun f : FileInfo => f.Hash) _ p (List.mem_of_mem_filter hp)

theorem groupByHash_nodup_keys (files : List FileInfo) :
    ((groupByHash files).map Prod.fst).Nodup := by
  rw [groupByHash_eq]
  exact (nodup_keys_groupInto (fun f : FileInfo => f.Hash) _).sublist
    (List.Sublist.map Prod.fst (List.filter_sublist _))

theorem groupByHash_two_le (files : List FileInfo) :
    ∀ p ∈ groupByHash files, 2 ≤ p.2.length := by
  intro p hp
  rw [groupByHash_eq] at hp
  have h1 : p.2 ≠ [] := nonnil_groupInto _ _ p (List.mem_of_mem_filter hp)
  have h2 := (List.mem_filter.mp hp).2
  have h3 : p.2.length ≠ 1 := by simpa using h2
  have h4 : p.2.length ≠ 0 := fun hh => h1 (List.length_eq_zero.mp hh)
  omega

theorem groupByHash_disjoint (files : List FileInfo) :
    ∀ p ∈ groupByHash files, ∀ q ∈ groupByHash files, p ≠ q →
      ∀ f, f ∈ p.2 → f ∉ q.2 := by
  intro p hp q hq hpq f hfp hfq
  have h1 : f.Hash = p.1 := groupByHash_keyed files p hp f hfp
  have h2 : f.Hash = q.1 := groupByHash_keyed files q hq f hfq
  exact hpq (key_inj_of_nodup (groupByHash_nodup_keys files) p hp q hq (h1 ▸ h2))

/-! ### Walker lemmas -/

theorem walkF_inv : ∀ (ts : FForest), ∀ f ∈ walkF ts, 0 < f.Size ∧ f.Hash = ""
  | FForest.nil => by simp [walkF]
  | FForest.cons (FTree.file p s) ts => by
      intro f hf
      simp only [walkF, List.mem_append] at hf
      rcases hf with hf | hf
      · by_cases hs : 0 < s
        · rw [if_pos hs] at hf
          simp only [List.mem_singleton] at hf
          subst hf
          exact ⟨hs, rfl⟩
        · rw [if_neg hs] at hf
          simp at hf
      · exact walkF_inv ts f hf
  | FForest.cons (FTree.special q) ts => by
      intro f hf
      exact walkF_inv ts f (by simpa [walkF] using hf)
  | FForest.cons (FTree.errEntry q) ts => by
      intro f hf
      exact walkF_inv ts f (by simpa [walkF] using hf)
  | FForest.cons (FTree.dir q es) ts => by
      intro f hf
      simp only [walkF, List.mem_append] at hf
      rcases hf with hf | hf
      · by_cases hv : isVcsDir q
        · rw [if_pos hv] at hf
          simp at hf
        · rw [if_neg hv] at hf
          exact walkF_inv es f hf
      · exact walkF_inv ts f hf

theorem walkDirsGo_inv (P : FileInfo → Prop)
    (hP : ∀ t, ∀ f ∈ walkTree t, P f) :
    ∀ (roots : List RootOutcome) (acc out : List FileInfo),
      (∀ f ∈ acc, P f) → walkDirsGo roots acc = Except.ok out → ∀ f ∈ out, P f
  | [], acc, out, hacc, h => by
      simp only [walkDirsGo] at h
      injection h with h
      subst h
      exact hacc
  | RootOutcome.absFail :: rest, acc, out, hacc, h =>
      walkDirsGo_inv P hP rest acc out hacc h
  | RootOutcome.walkFail e :: rest, acc, out, hacc, h => by
      simp [walkDirsGo] at h
  | RootOutcome.ok t :: rest, acc, out, hacc, h =>
      walkDirsGo_inv P hP rest (acc ++ walkTree t) out
        (by
          intro f hf
          rcases List.mem_append.mp hf with hf | hf
          · exact hacc f hf
          · exact hP t f hf) h

theorem walkDirs_ok_inv {roots : List RootOutcome} {out : List FileInfo}
    (h : walkDirs roots = Except.ok out) : ∀ f ∈ out, 0 < f.Size ∧ f.Hash = "" := by
  unfold walkDirs at h
  by_cases hr : roots = []
  · rw [if_pos hr] at h
    exact absurd h (by simp)
  · rw [if_neg hr] at h
    exact walkDirsGo_inv _ (fun t f hf => walkF_inv _ f hf) roots [] out (by simp) h

theorem walkDirsGo_ok_of_no_fail :
    ∀ (roots : List RootOutcome) (acc : List FileInfo),
      (∀ r ∈ roots, isWalkFail r = false) → ∃ fs, walkDirsGo roots acc = Except.ok fs
  | [], acc, _ => ⟨acc, rfl⟩
  | RootOutcome.absFail :: rest, acc, h =>
      walkDirsGo_ok_of_no_fail rest acc (fun r hr => h r (List.mem_cons_of_mem _ hr))
  | RootOutcome.walkFail e :: rest, acc, h =>
      absurd (h _ (List.mem_cons_self _ _)) (by simp [isWalkFail])
  | RootOutcome.ok t :: rest, acc, h =>
      walkDirsGo_ok_of_no_fail rest (acc ++ walkTree t)
        (fun r hr => h r (List.mem_cons_of_mem _ hr))

theorem walkDirsGo_fail :
    ∀ (pre : List RootOutcome) (e : String) (post : List RootOutcome) (acc : List FileInfo),
      (∀ r ∈ pre, isWalkFail r = false) →
      walkDirsGo (pre ++ RootOutcome.walkFail e :: post) acc = Except.error e
  | [], _, _, _, _ => rfl
  | RootOutcome.absFail :: pre, e, post, acc, h =>
      walkDirsGo_fail pre e post acc (fun r hr => h r (List.mem_cons_of_mem _ hr))
  | RootOutcome.walkFail e' :: pre, e, post, acc, h =>
      absurd (h _ (List.mem_cons_self _ _)) (by simp [isWalkFail])
  | RootOutcome.ok t :: pre, e, post, acc, h =>
      walkDirsGo_fail pre e post (acc ++ walkTree t)
        (fun r hr => h r (List.mem_cons_of_mem _ hr))

/-! ### Hashing lemmas -/

theorem calcHashs_eq (files : List FileInfo) (hashName : String) (oracle : HashOracle) :
    calcHashs files hashName oracle
      = (files.map (hashTask oracle (newHash hashName)),
         (files.filter (fun f => (oracle (newHash hashName) f.Path).isNone)).map
           (fun f => hashErrMsg f.Path)) := by
  by_cases hf : files = []
  · subst hf; simp [calcHashs]
  · simp [calcHashs, hf]

theorem hashTask_Path (oracle : HashOracle) (alg : HashAlg) (f : FileInfo) :
    (hashTask oracle alg f).Path = f.Path := by
  unfold hashTask
  cases oracle alg f.Path <;> rfl

theorem hashTask_Size (oracle : HashOracle) (alg : HashAlg) (f : FileInfo) :
    (hashTask oracle alg f).Size = f.Size := by
  unfold hashTask
  cases oracle alg f.Path <;> rfl

theorem hashTask_of_none {oracle : HashOracle} {alg : HashAlg} {f : FileInfo}
    (h : oracle alg f.Path = none) : hashTask oracle alg f = f := by
  simp [hashTask, h]

theorem hashTask_of_some {oracle : HashOracle} {alg : HashAlg} {f : FileInfo} {hv : String}
    (h : oracle alg f.Path = some hv) : hashTask oracle alg f = { f with Hash := hv } := by
  simp [hashTask, h]

theorem mem_calcHashs_fst {files : List FileInfo} {hashName : String}
    {oracle : HashOracle} {f : FileInfo}
    (h : f ∈ (calcHashs files hashName oracle).1) :
    ∃ f0 ∈ files, f = hashTask oracle (newHash hashName) f0 := by
  rw [calcHashs_eq] at h
  rcases List.mem_map.mp h with ⟨f0, hf0, heq⟩
  exact ⟨f0, hf0, heq.symm⟩

/-! ### Cleaner lemmas -/

theorem Clean_eq_foldl (fs files) :
    Clean fs files = files.foldl cleanStep (fs, 0, []) := by
  cases files <;> simp [Clean]

theorem foldl_cleanStep_shift :
    ∀ (files : List String) (fs : List String) (n : Nat) (errs : List String),
      files.foldl cleanStep (fs, n, errs)
        = ((files.foldl cleanStep (fs, 0, [])).1,
           n + (files.foldl cleanStep (fs, 0, [])).2.1,
           errs ++ (files.foldl cleanStep (fs, 0, [])).2.2)
  | [], fs, n, errs => by simp
  | f :: files, fs, n, errs => by
      by_cases hm : f ∈ fs
      · have h1 : ∀ (n' : Nat) (e' : List String),
            cleanStep (fs, n', e') f = (fs.erase f, n' + 1, e') := by
          intro n' e'
          simp [cleanStep, osRemove, hm]
        rw [List.foldl_cons, List.foldl_cons, h1, h1,
          foldl_cleanStep_shift files (fs.erase f) (n + 1) errs,
          foldl_cleanStep_shift files (fs.erase f) 1 []]
        rcases files.foldl cleanStep (fs.erase f, 0, []) with ⟨A, B, C⟩
        simp [Prod.mk.injEq, Nat.add_assoc]
      · have h1 : ∀ (n' : Nat) (e' : List String),
            cleanStep (fs, n', e') f
              = (fs, n', e' ++ [cleanErrMsg f ("remove " ++ f ++ ": no such file or directory")]) := by
          intro n' e'
          simp [cleanStep, osRemove, hm]
        rw [List.foldl_cons, List.foldl_cons, h1, h1,
          foldl_cleanStep_shift files fs n
            (errs ++ [cleanErrMsg f ("remove " ++ f ++ ": no such file or directory")]),
          foldl_cleanStep_shift files fs 0
            ([] ++ [cleanErrMsg f ("remove " ++ f ++ ": no such file or directory")])]
        rcases files.foldl cleanStep (fs, 0, []) with ⟨A, B, C⟩
        simp [Prod.mk.injEq]

theorem Clean_cons (fs : List String) (f : String) (rest : List String) :
    Clean fs (f :: rest)
      = (match osRemove fs f with
         | (fs', none) =>
             ((Clean fs' rest).1, (Clean fs' rest).2.1 + 1, (Clean fs' rest).2.2)
         | (fs', some e) =>
             ((Clean fs' rest).1, (Clean fs' rest).2.1,
               cleanErrMsg f e :: (Clean fs' rest).2.2)) := by
  rw [Clean_eq_foldl, List.foldl_cons]
  by_cases hm : f ∈ fs
  · have h1 : cleanStep (fs, 0, []) f = (fs.erase f, 1, []) := by
      simp [cleanStep, osRemove, hm]
    have h2 : osRemove fs f = (fs.erase f, none) := by simp [osRemove, hm]
    rw [h1, h2, foldl_cleanStep_shift rest (fs.erase f) 1 []]
    simp [Clean_eq_foldl, Nat.add_comm]
  · have h1 : cleanStep (fs, 0, []) f
        = (fs, 0, [cleanErrMsg f ("remove " ++ f ++ ": no such file or directory")]) := by
      simp [cleanStep, osRemove, hm]
    have h2 : osRemove fs f
        = (fs, some ("remove " ++ f ++ ": no such file or directory")) := by
      simp [osRemove, hm]
    rw [h1, h2,
      foldl_cleanStep_shift rest fs 0
        [cleanErrMsg f ("remove " ++ f ++ ": no such file or directory")]]
    simp [Clean_eq_foldl]

theorem Clean_count : ∀ (files : List String) (fs : List String),
    (Clean fs files).2.1 + (Clean fs files).2.2.length = files.length
  | [], fs => by simp [Clean]
  | f :: files, fs => by
      rw [Clean_cons]
      by_cases hm : f ∈ fs
      · have h2 : osRemove fs f = (fs.erase f, none) := by simp [osRemove, hm]
        rw [h2]
        have := Clean_count files (fs.erase f)
        simp only [List.length_cons]
        omega
      · have h2 : osRemove fs f
            = (fs, some ("remove " ++ f ++ ": no such file or directory")) := by
          simp [osRemove, hm]
        rw [h2]
        have := Clean_count files fs
        simp only [List.length_cons, List.length_cons]
        simp only [List.length_cons] at *
        omega

theorem Clean_errs_empty_iff (fs files) :
    (Clean fs files).2.2 = [] ↔ (Clean fs files).2.1 = files.length := by
  have h := Clean_count files fs
  constructor
  · intro he
    rw [he] at h
    simpa using h
  · intro hn
    rw [hn] at h
    have : (Clean fs files).2.2.length = 0 := by omega
    exact List.length_eq_zero.mp this

theorem Clean_errs_named : ∀ (files : List String) (fs : List String),
    ∀ m ∈ (Clean fs files).2.2, ∃ p ∈ files, ∃ e, m = cleanErrMsg p e
  | [], fs => by simp [Clean]
  | f :: files, fs => by
      intro m hm
      rw [Clean_cons] at hm
      by_cases hf : f ∈ fs
      · rw [show osRemove fs f = (fs.erase f, none) from by simp [osRemove, hf]] at hm
        simp only at hm
        rcases Clean_errs_named files (fs.erase f) m hm with ⟨p, hp, e, he⟩
        exact ⟨p, List.mem_cons_of_mem f hp, e, he⟩
      · rw [show osRemove fs f
            = (fs, some ("remove " ++ f ++ ": no such file or directory")) from by
          simp [osRemove, hf]] at hm
        simp only [List.mem_cons] at hm
        rcases hm with hm | hm
        · exact ⟨f, List.mem_cons_self f files, _, hm⟩
        · rcases Clean_errs_named files fs m hm with ⟨p, hp, e, he⟩
          exact ⟨p, List.mem_cons_of_mem f hp, e, he⟩

/-! ### Textual list format lemmas -/

theorem splitChar_ne_nil (sep : Char) : ∀ l : List Char, splitChar sep l ≠ []
  | [] => by simp [splitChar]
  | c :: rest => by
      by_cases h : c = sep
      · simp [splitChar, h]
      · simp only [splitChar, if_neg h]
        cases hs : splitChar sep rest with
        | nil => simp
        | cons s ss => simp

theorem splitChar_head_no_sep (sep : Char) :
    ∀ (a b : List Char), sep ∉ a → (splitChar sep (a ++ sep :: b)).headD [] = a
  | [], b, _ => by simp [splitChar]
  | c :: a, b, h => by
      have hc : ¬ c = sep := fun hh => h (hh ▸ List.mem_cons_self c a)
      simp only [List.cons_append, splitChar, if_neg hc]
      cases hs : splitChar sep (a ++ sep :: b) with
      | nil => exact absurd hs (splitChar_ne_nil sep _)
      | cons s ss =>
          have hrec := splitChar_head_no_sep sep a b (fun hm => h (List.mem_cons_of_mem c hm))
          rw [hs] at hrec
          simp only [List.headD_cons] at hrec ⊢
          rw [hrec]

theorem tab_mem_formatRecord (f : FileInfo) : '\t' ∈ formatRecord f := by
  unfold formatRecord
  simp

theorem formatRecord_ne_splitLine (f : FileInfo) : formatRecord f ≠ splitLine.data := by
  intro h
  have hmem := tab_mem_formatRecord f
  rw [h] at hmem
  exact absurd hmem (by decide)

theorem formatRecord_first_field (f : FileInfo) (h : '\t' ∉ f.Path.data) :
    (splitTab (formatRecord f)).headD [] = f.Path.data := by
  unfold formatRecord splitTab
  exact splitChar_head_no_sep '\t' f.Path.data _ h

theorem readLines_formatted (fname : String) :
    ∀ (v : List FileInfo), (∀ f ∈ v, '\t' ∉ f.Path.data) →
      ∀ (tail : List (List Char)) (acc : List String),
        readLines fname (v.map formatRecord ++ tail) acc
          = readLines fname tail (acc ++ v.map (fun f => f.Path))
  | [], _, tail, acc => by simp
  | f :: v, hv, tail, acc => by
      have hf : '\t' ∉ f.Path.data := hv f (List.mem_cons_self f v)
      simp only [List.map_cons, List.cons_append]
      rw [readLines, if_neg (formatRecord_ne_splitLine f)]
      have hlen : ¬ (splitTab (formatRecord f)).length < 1 := by
        have := splitChar_ne_nil '\t' (formatRecord f)
        have hpos : 0 < (splitTab (formatRecord f)).length :=
          List.length_pos.mpr (by simpa [splitTab] using this)
        omega
      rw [if_neg hlen, formatRecord_first_field f hf]
      have hmk : String.mk f.Path.data = f.Path := rfl
      rw [hmk, readLines_formatted fname v
        (fun g hg => hv g (List.mem_cons_of_mem f hg)) tail (acc ++ [f.Path])]
      simp

theorem saveLines_readLines (fname : String) :
    ∀ (l : DupList), (∀ g ∈ l, ∀ f ∈ g.2, '\t' ∉ f.Path.data) →
      ∀ (acc : List String),
        readLines fname (saveLines l) acc = Except.ok (acc ++ pathsOf l)
  | [], _, acc => by simp [saveLines, readLines, pathsOf]
  | g :: rest, h, acc => by
      simp only [saveLines]
      rw [readLines, if_pos rfl]
      rw [readLines_formatted fname g.2 (h g (List.mem_cons_self g rest)) (saveLines rest) acc]
      rw [saveLines_readLines fname rest
        (fun q hq => h q (List.mem_cons_of_mem g hq)) (acc ++ g.2.map (fun f => f.Path))]
      simp [pathsOf]

theorem readList_saveLines (fname : String) (l : DupList)
    (h : ∀ g ∈ l, ∀ f ∈ g.2, '\t' ∉ f.Path.data) :
    readList [(fname, some (saveLines l))] = Except.ok (pathsOf l) := by
  unfold readList readListGo
  rw [saveLines_readLines fname l h []]
  simp [readListGo]

theorem parseGroupsGo_formatted :
    ∀ (v : List FileInfo), (∀ f ∈ v, '\t' ∉ f.Path.data) →
      ∀ (tail : List (List Char)),
        parseGroupsGo (v.map formatRecord ++ tail)
          = (v.map (fun f => f.Path) ++ (parseGroupsGo tail).1, (parseGroupsGo tail).2)
  | [], _, tail => by simp
  | f :: v, hv, tail => by
      have hf : '\t' ∉ f.Path.data := hv f (List.mem_cons_self f v)
      simp only [List.map_cons, List.cons_append]
      rw [parseGroupsGo]
      rw [parseGroupsGo_formatted v (fun g hg => hv g (List.mem_cons_of_mem f hg)) tail]
      rw [if_neg (formatRecord_ne_splitLine f)]
      rw [formatRecord_first_field f hf]

theorem parseGroups_saveLines :
    ∀ (l : DupList), (∀ g ∈ l, ∀ f ∈ g.2, '\t' ∉ f.Path.data) →
      parseGroupsGo (saveLines l) = ([], l.map (fun g => g.2.map (fun f => f.Path)))
  | [], _ => by simp [saveLines, parseGroupsGo]
  | g :: rest, h => by
      simp only [saveLines]
      rw [parseGroupsGo]
      rw [parseGroupsGo_formatted g.2 (h g (List.mem_cons_self g rest)) (saveLines rest)]
      rw [parseGroups_saveLines rest (fun q hq => h q (List.mem_cons_of_mem g hq))]
      simp

/-! ### Claim statements and theorems -/

/-- Specification of `groupByHash` (HashGrouper): a genuine mapping (distinct
keys, every stored record carries its group's hash), every group has at least
two records, no absent-hash record appears, and the union of the groups is,
up to permutation, exactly the input records with a non-absent hash occurring
at least twice. -/
def hashGrouperSpec (files : List FileInfo) : Prop :=
  (∀ p ∈ groupByHash files, 2 ≤ p.2.length)
  ∧ List.Perm (flatVals (groupByHash files))
      (files.filter
        (fun f => f.Hash != "" && decide (2 ≤ files.countP (fun g => g.Hash == f.Hash))))
  ∧ (∀ p ∈ groupByHash files, ∀ f ∈ p.2, f.Hash ≠ "")
  ∧ (∀ p ∈ groupByHash files, ∀ f ∈ p.2, f.Hash = p.1)
  ∧ ((groupByHash files).map Prod.fst).Nodup

/-- C1: for every input, HashGrouper's groups all have cardinality at least
2, the union of the groups is exactly the input records whose hash is
non-absent and occurs at least twice, and absent-hash records never appear. -/
theorem hashGrouper_correct (files : List FileInfo) : hashGrouperSpec files :=
  ⟨groupByHash_two_le files,
   groupByHash_perm files,
   fun p hp f hf => (mem_flatVals_groupByHash (mem_flatVals.mpr ⟨p, hp, hf⟩)).2,
   groupByHash_keyed files,
   groupByHash_nodup_keys files⟩

/-- A small concrete record list exercising duplicate, unique and absent
hashes and sizes. -/
def demoFiles : List FileInfo :=
  [⟨"/a", 1, "h"⟩, ⟨"/b", 1, "h"⟩, ⟨"/c", 1, "g"⟩, ⟨"/d", 3, ""⟩, ⟨"/e", 4, "h"⟩]

theorem hashGrouper_correct_witness : hashGrouperSpec demoFiles :=
  hashGrouper_correct demoFiles

theorem groupBySize_no_singleton_size (files : List FileInfo) (s : Int) :
    (groupBySize files).countP (fun f => f.Size == s) ≠ 1 := by
  rw [(groupBySize_perm files).countP_eq, List.countP_filter]
  by_cases hc : files.countP (fun g => g.Size == s) = 1
  · have hz : files.countP
        (fun f => (f.Size == s)
          && (files.countP (fun g => g.Size == f.Size) != 1)) = 0 := by
      refine List.countP_eq_zero.mpr ?_
      intro f _
      simp only [Bool.and_eq_true, beq_iff_eq, bne_iff_ne, ne_eq, not_and]
      intro hfs
      rw [hfs]
      simp [hc]
    rw [hz]
    omega
  · have he : files.countP
        (fun f => (f.Size == s)
          && (files.countP (fun g => g.Size == f.Size) != 1))
        = files.countP (fun f => f.Size == s) := by
      refine List.countP_congr ?_
      intro f _
      by_cases hfs : f.Size = s
      · simp [hfs, hc]
      · simp [hfs]
    rw [he]
    exact hc

/-- Specification of `groupBySize` (SizeGrouper): no size occurs exactly
once in the output, every output record is an input record (hence has its
input size), the output is, up to permutation, exactly the input records
whose size occurs at least twice, and the empty input gives the empty
output. -/
def sizeGrouperSpec (files : List FileInfo) : Prop :=
  (∀ s : Int, (groupBySize files).countP (fun f => f.Size == s) ≠ 1)
  ∧ (∀ f ∈ groupBySize files, f ∈ files)
  ∧ List.Perm (groupBySize files)
      (files.filter (fun f => decide (2 ≤ files.countP (fun g => g.Size == f.Size))))
  ∧ groupBySize [] = []

/-- C2: for every input, SizeGrouper's output contains no size with exactly
one record, every output record appears in the input with that size, the
output is exactly the input records whose size occurs at least twice, and an
empty input yields an empty output rather than an error. -/
theorem sizeGrouper_correct (files : List FileInfo) : sizeGrouperSpec files :=
  ⟨groupBySize_no_singleton_size files,
   fun _ hf => mem_groupBySize hf,
   groupBySize_perm_two_le files,
   rfl⟩

theorem sizeGrouper_correct_witness : sizeGrouperSpec demoFiles :=
  sizeGrouper_correct demoFiles

/-- Specification of `Clean` (Cleaner): the empty list is a no-op with
result `(0, nil error)`; success count plus failure count equals the number
of given paths; the joined error is empty exactly when every deletion
succeeded; each path is processed independently of the outcome of the
previous one (the head's failure only contributes its `{path, error}` entry
and never aborts the tail); and every failure entry names a processed
path. -/
def cleanerSpec : Prop :=
  (∀ fs : List String, Clean fs [] = (fs, 0, []))
  ∧ (∀ (fs files : List String),
      (Clean fs files).2.1 + (Clean fs files).2.2.length = files.length)
  ∧ (∀ (fs files : List String),
      ((Clean fs files).2.2 = [] ↔ (Clean fs files).2.1 = files.length))
  ∧ (∀ (fs : List String) (f : String) (rest : List String),
      Clean fs (f :: rest)
        = (match osRemove fs f with
           | (fs', none) =>
               ((Clean fs' rest).1, (Clean fs' rest).2.1 + 1, (Clean fs' rest).2.2)
           | (fs', some e) =>
               ((Clean fs' rest).1, (Clean fs' rest).2.1,
                 cleanErrMsg f e :: (Clean fs' rest).2.2)))
  ∧ (∀ (fs files : List String), ∀ m ∈ (Clean fs files).2.2,
      ∃ p ∈ files, ∃ e, m = cleanErrMsg p e)

/-- C3: Clean deletes each path independently, counts successes, collects a
`{path, error}` entry per failure without aborting, returns an empty joined
error exactly when everything succeeded, and is a no-op on the empty
list. -/
theorem cleaner_correct : cleanerSpec :=
  ⟨fun _ => rfl,
   fun fs files => Clean_count files fs,
   fun fs files => Clean_errs_empty_iff fs files,
   fun fs f rest => Clean_cons fs f rest,
   fun fs files => Clean_errs_named files fs⟩

/-- The three invariants of a detection result: every record has a
non-absent hash and positive size, distinct groups share no record, and
every group has at least two records. -/
def dupInv (lst : DupList) : Prop :=
  (∀ p ∈ lst, ∀ f ∈ p.2, f.Hash ≠ "" ∧ 0 < f.Size)
  ∧ (∀ p ∈ lst, ∀ q ∈ lst, p ≠ q → ∀ f, f ∈ p.2 → f ∉ q.2)
  ∧ (∀ p ∈ lst, 2 ≤ p.2.length)

/-- C4: every duplicate list returned by the detection pipeline satisfies
the invariants: non-empty hash and positive size on every record, no record
in two different groups, and at least two records per group. -/
theorem listDup_inv (roots : List RootOutcome) (hashName : String)
    (oracle : HashOracle) (lst : DupList) (errs : List String)
    (h : listDup roots hashName oracle = Except.ok (lst, errs)) : dupInv lst := by
  unfold listDup at h
  cases hw : walkDirs roots with
  | error e => rw [hw] at h; exact absurd h (by simp)
  | ok fs0 =>
      rw [hw] at h
      simp only [Except.ok.injEq, Prod.mk.injEq] at h
      rw [← h.1]
      refine ⟨?_, groupByHash_disjoint _, groupByHash_two_le _⟩
      intro p hp f hf
      have hmem := mem_flatVals_groupByHash (mem_flatVals.mpr ⟨p, hp, hf⟩)
      refine ⟨hmem.2, ?_⟩
      rcases mem_calcHashs_fst hmem.1 with ⟨f0, hf0, hfeq⟩
      have hsz : f.Size = f0.Size := by rw [hfeq, hashTask_Size]
      rw [hsz]
      exact (walkDirs_ok_inv hw f0 (mem_groupBySize hf0)).1

theorem listDup_inv_witness :
    dupInv [("aa", [⟨"/r/a", 1, "aa"⟩, ⟨"/r/b", 1, "aa"⟩])] :=
  listDup_inv
    [RootOutcome.ok (FTree.dir "/r"
      (FForest.cons (FTree.file "/r/a" 1) (FForest.cons (FTree.file "/r/b" 1) FForest.nil)))]
    "md5" (fun _ _ => some "aa")
    [("aa", [⟨"/r/a", 1, "aa"⟩, ⟨"/r/b", 1, "aa"⟩])] [] (by decide)

/-- A duplicate list whose paths contain a tab character: writing and
re-parsing it loses everything after the first tab of each path. -/
def tabDup : DupList := [("h", [⟨"a\tb", 1, "h"⟩, ⟨"a\tc", 1, "h"⟩])]

/-- C5 counterexample: for the duplicate list `tabDup` the paths are
`a\tb` and `a\tc`, but writing it with `saveList` and re-parsing the path
column with `readList` yields `a` twice — the original path set is not
reproduced, so the round-trip claim fails as universally stated. -/
theorem roundTrip_counterexample :
    pathsOf tabDup = ["a\tb", "a\tc"]
    ∧ readList [("list.txt", some (saveLines tabDup))] = Except.ok ["a", "a"]
    ∧ ¬ ("a\tb" ∈ (["a", "a"] : List String)) :=
  ⟨by decide, by decide, by decide⟩

/-- The amended round-trip property: re-parsing the saved lines reproduces
the path column exactly (in particular as a set), the group structure is
recoverable by cutting at the delimiter lines, no record line ever collides
with the delimiter line, and a non-empty duplicate list is written without
error. -/
def roundTripSpec (fname : String) (l : DupList) : Prop :=
  readList [(fname, some (saveLines l))] = Except.ok (pathsOf l)
  ∧ parseGroups (saveLines l) = l.map (fun g => g.2.map (fun f => f.Path))
  ∧ (∀ g ∈ l, ∀ f ∈ g.2, formatRecord f ≠ splitLine.data)
  ∧ (l ≠ [] → saveList l = Except.ok (saveLines l))

/-- C5 (amended): provided no path contains a tab character, writing a
duplicate list to the textual format and re-parsing the path column of
every non-delimiter line reproduces exactly the original path sequence
(hence the original path set), with the group boundaries recoverable from
the delimiter lines. -/
theorem roundTrip_amended (fname : String) (l : DupList)
    (htab : ∀ g ∈ l, ∀ f ∈ g.2, '\t' ∉ f.Path.data) : roundTripSpec fname l := by
  refine ⟨readList_saveLines fname l htab, ?_, ?_, ?_⟩
  · unfold parseGroups
    rw [parseGroups_saveLines l htab]
  · exact fun g _ f _ => formatRecord_ne_splitLine f
  · intro hne
    simp [saveList, hne]

theorem roundTrip_amended_witness :
    roundTripSpec "list.txt" [("h", [⟨"/a", 1, "h"⟩, ⟨"/b", 1, "h"⟩])] :=
  roundTrip_amended "list.txt" [("h", [⟨"/a", 1, "h"⟩, ⟨"/b", 1, "h"⟩])] (by decide)

/-- C6: evaluation of `readList` on the inputs the claim describes.  A line
with no tab is indeed treated as a bare path, but an *empty* line is also
accepted: it yields the empty-string path instead of the input-format error
the specification requires — the guard `len(s) < 1` in the source is
unreachable, since splitting any line produces at least one field. -/
theorem readList_empty_line_behavior :
    readList [("del.txt", some [[]])] = Except.ok [""]
    ∧ readList [("del.txt", some ["noTabPath".data])] = Except.ok ["noTabPath"]
    ∧ (∀ line : List Char, ¬ (splitTab line).length < 1) := by
  refine ⟨by decide, by decide, ?_⟩
  intro line
  have hnn := splitChar_ne_nil '\t' line
  have hpos : 0 < (splitTab line).length :=
    List.length_pos.mpr (by simpa [splitTab] using hnn)
  omega

/-- Specification of the Hasher's partial-failure behaviour, for the records
surviving the size pre-filter of a successful walk: records whose hashing
fails keep an absent hash, records whose hashing succeeds carry the digest,
the returned error list collects exactly the failures, the pipeline still
returns the grouped result alongside those errors, and the error list is
non-empty whenever some file failed to hash. -/
def hasherPartialSpec (roots : List RootOutcome) (hashName : String)
    (oracle : HashOracle) (fs0 : List FileInfo) : Prop :=
  (∀ f ∈ (calcHashs (groupBySize fs0) hashName oracle).1,
      oracle (newHash hashName) f.Path = none → f.Hash = "")
  ∧ (∀ f ∈ (calcHashs (groupBySize fs0) hashName oracle).1,
      ∀ hv, oracle (newHash hashName) f.Path = some hv → f.Hash = hv)
  ∧ (calcHashs (groupBySize fs0) hashName oracle).2
      = ((groupBySize fs0).filter
          (fun f => (oracle (newHash hashName) f.Path).isNone)).map
          (fun f => hashErrMsg f.Path)
  ∧ listDup roots hashName oracle
      = Except.ok (groupByHash (calcHashs (groupBySize fs0) hashName oracle).1,
          (calcHashs (groupBySize fs0) hashName oracle).2)
  ∧ ((∃ f ∈ groupBySize fs0, oracle (newHash hashName) f.Path = none)
      → (calcHashs (groupBySize fs0) hashName oracle).2 ≠ [])

/-- C7: per-file hashing failures are not fatal — failed records keep an
absent hash, the joined error set collects exactly the failures, and the
pipeline still returns the duplicate groups computed from the successfully
hashed records alongside that (then non-empty) error. -/
theorem hasher_partial (roots : List RootOutcome) (hashName : String)
    (oracle : HashOracle) (fs0 : List FileInfo)
    (h : walkDirs roots = Except.ok fs0) :
    hasherPartialSpec roots hashName oracle fs0 := by
  refine ⟨?_, ?_, ?_, ?_, ?_⟩
  · intro f hf hnone
    rcases mem_calcHashs_fst hf with ⟨f0, hf0, hfeq⟩
    have hpath : f.Path = f0.Path := by rw [hfeq, hashTask_Path]
    rw [hpath] at hnone
    rw [hfeq, hashTask_of_none hnone]
    exact (walkDirs_ok_inv h f0 (mem_groupBySize hf0)).2
  · intro f hf hv hsome
    rcases mem_calcHashs_fst hf with ⟨f0, hf0, hfeq⟩
    have hpath : f.Path = f0.Path := by rw [hfeq, hashTask_Path]
    rw [hpath] at hsome
    rw [hfeq, hashTask_of_some hsome]
  · rw [calcHashs_eq]
  · simp only [listDup, h]
  · rintro ⟨f, hf, hnone⟩
    rw [calcHashs_eq]
    exact List.ne_nil_of_mem
      (List.mem_map.mpr ⟨f, List.mem_filter.mpr ⟨hf, by simp [hnone]⟩, rfl⟩)

theorem hasher_partial_witness :
    hasherPartialSpec
      [RootOutcome.ok (FTree.file "/a" 1), RootOutcome.ok (FTree.file "/b" 1),
       RootOutcome.ok (FTree.file "/c" 1)]
      "md5" (fun _ p => if p = "/c" then none else some "aa")
      [⟨"/a", 1, ""⟩, ⟨"/b", 1, ""⟩, ⟨"/c", 1, ""⟩] :=
  hasher_partial _ "md5" (fun _ p => if p = "/c" then none else some "aa") _ (by decide)

/-- Specification of the Walker's two-tiered error behaviour: an empty root
list is the fatal `目录未指定` error; when no root suffers a walk-primitive
failure the walk succeeds, with stat/access-error entries merely skipped
(both as a root child and inside a directory); and a walk-primitive failure
on some root aborts the whole walk with that error. -/
def walkerErrSpec : Prop :=
  (walkDirs [] = Except.error dirsErr)
  ∧ (∀ roots : List RootOutcome, roots ≠ [] →
      (∀ r ∈ roots, isWalkFail r = false) → ∃ fs, walkDirs roots = Except.ok fs)
  ∧ (∀ (q : String) (rest : FForest),
      walkF (FForest.cons (FTree.errEntry q) rest) = walkF rest)
  ∧ (∀ (p q : String) (es : FForest) (rest : FForest),
      walkF (FForest.cons (FTree.dir p (FForest.cons (FTree.errEntry q) es)) rest)
        = walkF (FForest.cons (FTree.dir p es) rest))
  ∧ (∀ (pre : List RootOutcome) (e : String) (post : List RootOutcome),
      (∀ r ∈ pre, isWalkFail r = false) →
      walkDirs (pre ++ RootOutcome.walkFail e :: post) = Except.error e)

/-- C8: walker error behaviour is two-tiered — empty roots are the fatal
"no roots specified" error, per-entry stat/access errors only skip the
affected subtree, and a failure of the walk primitive itself aborts the
whole detection with that error. -/
theorem walker_errors : walkerErrSpec := by
  refine ⟨rfl, ?_, ?_, ?_, ?_⟩
  · intro roots hne hnf
    rw [walkDirs, if_neg hne]
    exact walkDirsGo_ok_of_no_fail roots [] hnf
  · intro q rest
    rfl
  · intro p q es rest
    by_cases hv : isVcsDir p
    · simp [walkF, hv]
    · simp [walkF, hv]
  · intro pre e post h
    have hne : pre ++ RootOutcome.walkFail e :: post ≠ [] := by
      intro hcontra
      have := congrArg List.length hcontra
      simp [List.length_append] at this
    rw [walkDirs, if_neg hne]
    exact walkDirsGo_fail pre e post [] h

/-- Specification of `newHash`: the selection only depends on the lowercased
name, each of the four algorithm names (in any case) selects its algorithm,
and every other name silently selects MD5 instead of failing. -/
def newHashSpec : Prop :=
  (∀ s t : String, strLower s = strLower t → newHash s = newHash t)
  ∧ newHash "md5" = HashAlg.md5 ∧ newHash "MD5" = HashAlg.md5
  ∧ newHash "sha1" = HashAlg.sha1 ∧ newHash "Sha1" = HashAlg.sha1
  ∧ newHash "sha256" = HashAlg.sha256 ∧ newHash "SHA256" = HashAlg.sha256
  ∧ newHash "sha512" = HashAlg.sha512 ∧ newHash "sHa512" = HashAlg.sha512
  ∧ (∀ s : String, strLower s ≠ "sha1" → strLower s ≠ "sha256" →
      strLower s ≠ "sha512" → newHash s = HashAlg.md5)

/-- C9: the digest selector matches names case-insensitively over
md5/sha1/sha256/sha512, and every unrecognized name silently falls back to
MD5 rather than returning an error. -/
theorem newHash_selector : newHashSpec := by
  refine ⟨?_, by decide, by decide, by decide, by decide, by decide, by decide,
    by decide, by decide, ?_⟩
  · intro s t h
    unfold newHash
    rw [h]
  · intro s h1 h2 h3
    simp [newHash, h1, h2, h3]

/-- C10: applying SizeGrouper to its own output returns the same multiset of
records, since the output never contains a singleton size class. -/
def sizeGrouperIdem (files : List FileInfo) : Prop :=
  List.Perm (groupBySize (groupBySize files)) (groupBySize files)

theorem count_size_out_two_le (files : List FileInfo) :
    ∀ f ∈ groupBySize files,
      2 ≤ (groupBySize files).countP (fun g => g.Size == f.Size) := by
  intro f hf
  have hp := groupBySize_perm_two_le files
  have hfp := hp.mem_iff.mp hf
  have hpred := (List.mem_filter.mp hfp).2
  have h2 : 2 ≤ files.countP (fun g => g.Size == f.Size) := by simpa using hpred
  rw [hp.countP_eq, List.countP_filter]
  have he : files.countP
      (fun g => (g.Size == f.Size)
        && decide (2 ≤ files.countP (fun g2 => g2.Size == g.Size)))
      = files.countP (fun g => g.Size == f.Size) := by
    refine List.countP_congr ?_
    intro g _
    by_cases hgs : g.Size = f.Size
    · simp [hgs, h2]
    · simp [hgs]
  rw [he]
  exact h2

/-- C10: SizeGrouper is idempotent up to multiset equality. -/
theorem sizeGrouper_idem (files : List FileInfo) : sizeGrouperIdem files := by
  have hkeep : (groupBySize files).filter
      (fun f => decide (2 ≤ (groupBySize files).countP (fun g => g.Size == f.Size)))
      = groupBySize files := by
    refine List.filter_eq_self.mpr ?_
    intro f hf
    simpa using count_size_out_two_le files f hf
  have hperm := groupBySize_perm_two_le (groupBySize files)
  rw [hkeep] at hperm
  exact hperm

theorem sizeGrouper_idem_witness : sizeGrouperIdem demoFiles :=
  sizeGrouper_idem demoFiles

end DupClean
